import Mathlib

/-!
Shallow embedding of `rsfuzzymind` (`src/src/lib.rs`), a fuzzy-logic
inference toolkit.  `f64` values are modelled by exact rationals `ℚ`;
`HashMap<String, f64>` inputs are modelled by association lists; the
fallible consequence type `Result<String, FuzzySet>` is modelled by
`Except FuzzySet String` (`ok` = crisp label, `error` = fuzzy set).
The `while x <= max_val { ...; x += step }` scanning loops are modelled
by an explicit list of the visited sample points; over exact rationals
the visited points are exactly `min + k*step` for
`k = 0, ..., ⌊(max - min)/step⌋`.  For parameter choices on which the
source loop never terminates (`step ≤ 0` together with `min ≤ max`) the
model produces no sample points; every theorem that depends on the loop
carries the hypotheses `min ≤ max` and `0 < step` under which the source
loop terminates.
-/

/-- Model of `HashMap<String, f64>`: an association list of named inputs. -/
abbrev InputMap := List (String × ℚ)

/-- Model of `struct FuzzySet` (`lib.rs` lines 3-6): a named membership
function over the (rational-modelled) reals. -/
structure FuzzySet where
  name : String
  membership_function : ℚ → ℚ

namespace FuzzySet

/-- `FuzzySet::membership_degree` (lines 16-18). -/
def membership_degree (s : FuzzySet) (x : ℚ) : ℚ :=
  s.membership_function x

/-- `FuzzySet::union` (lines 20-25): pointwise `f64::max`. -/
def union (s other_set : FuzzySet) : FuzzySet :=
  { name := ("Union(" ++ s.name ++ ", " ++ other_set.name ++ ")")
    membership_function := fun x =>
      max (s.membership_function x) (other_set.membership_function x) }

/-- `FuzzySet::intersection` (lines 27-32): pointwise `f64::min`. -/
def intersection (s other_set : FuzzySet) : FuzzySet :=
  { name := ("Intersection(" ++ s.name ++ ", " ++ other_set.name ++ ")")
    membership_function := fun x =>
      min (s.membership_function x) (other_set.membership_function x) }

/-- `FuzzySet::complement` (lines 34-39): `1.0 - mu(x)`. -/
def complement (s : FuzzySet) : FuzzySet :=
  { name := ("Complement(" ++ s.name ++ ")")
    membership_function := fun x => 1 - s.membership_function x }

/-- `FuzzySet::normalize` (lines 41-49): `mu(x) / max(1.0, mu(x))`. -/
def normalize (s : FuzzySet) : FuzzySet :=
  { name := ("Normalized(" ++ s.name ++ ")")
    membership_function := fun x =>
      s.membership_function x / max 1 (s.membership_function x) }

end FuzzySet

/-- The sample points visited by the source's scanning loops
`let mut x = min_val; while x <= max_val { ...; x += step; }`.
Over exact rationals these are `min_val + k*step` for
`k = 0, ..., ⌊(max_val - min_val)/step⌋` when `min_val ≤ max_val` and
`0 < step`.  When `min_val > max_val` the loop body never runs; when
`step ≤ 0` and `min_val ≤ max_val` the source loop does not terminate and
the model produces no points (all loop theorems assume `0 < step`). -/
def samplePoints (min_val max_val step : ℚ) : List ℚ :=
  if min_val ≤ max_val ∧ 0 < step then
    (List.range ((⌊(max_val - min_val) / step⌋).toNat + 1)).map
      (fun k => min_val + (k : ℚ) * step)
  else []

/-- `FuzzySet::centroid` (lines 51-66): one scan accumulating
`numerator += x * mu` and `denominator += mu`, then the zero-denominator
fallback `0.0`. -/
def FuzzySet.centroid (s : FuzzySet) (min_val max_val step : ℚ) : ℚ :=
  let p := (samplePoints min_val max_val step).foldl
    (fun acc x => (acc.1 + x * s.membership_degree x, acc.2 + s.membership_degree x))
    ((0 : ℚ), (0 : ℚ))
  if p.2 = 0 then 0 else p.1 / p.2

/-- Model of `struct FuzzyRule` (lines 69-73). -/
structure FuzzyRule where
  condition : InputMap → Bool
  consequence : InputMap → Except FuzzySet String
  weight : ℚ

/-- `FuzzyRule::evaluate` (lines 88-94). -/
def FuzzyRule.evaluate (r : FuzzyRule) (inputs : InputMap) :
    Option (Except FuzzySet String × ℚ) :=
  if r.condition inputs then some (r.consequence inputs, r.weight) else none

/-- Model of `struct InferenceEngine` (lines 97-99). -/
structure InferenceEngine where
  rules : List FuzzyRule

namespace InferenceEngine

/-- `InferenceEngine::priority_mapping` (lines 139-146); the Rust `match`
on `&str` is modelled by the equivalent chain of string comparisons. -/
def priority_mapping (priority : String) : ℚ :=
  if priority = "Urgent" then 3
  else if priority = "High Priority" then 2
  else if priority = "Medium Priority" then 1
  else 0

/-- `InferenceEngine::reverse_priority_mapping` (lines 148-158). -/
def reverse_priority_mapping (score : ℚ) : String :=
  if score ≥ 5/2 then ("Urgent")
  else if score ≥ 3/2 then ("High Priority")
  else if score ≥ 1/2 then ("Medium Priority")
  else ("Low Priority")

/-- The per-result priority value computed inside `aggregate_results`
(lines 124-127): `Ok(priority)` is looked up, `Err(_)` contributes `0.0`. -/
def priorityValue (result : Except FuzzySet String) : ℚ :=
  match result with
  | Except.ok priority => priority_mapping priority
  | Except.error _ => 0

/-- `InferenceEngine::aggregate_results` (lines 116-137): empty-result
default, one loop accumulating `weighted_sum` and `total_weight`, then the
positive-total-weight test. -/
def aggregate_results (results : List (Except FuzzySet String × ℚ)) : String :=
  if results.isEmpty then ("Low Priority")
  else
    let p := results.foldl
      (fun acc rw => (acc.1 + priorityValue rw.1 * rw.2, acc.2 + rw.2))
      ((0 : ℚ), (0 : ℚ))
    if p.2 > 0 then reverse_priority_mapping (p.1 / p.2)
    else ("Low Priority")

/-- `InferenceEngine::infer` (lines 106-114): collect the evaluations of
all matching rules in order, then aggregate. -/
def infer (e : InferenceEngine) (inputs : InputMap) : String :=
  aggregate_results (e.rules.filterMap (fun rule => rule.evaluate inputs))

/-- `InferenceEngine::get_fuzzy_set_consequences` (lines 160-171): each
rule's consequence is applied to `HashMap::new()` (the empty input map)
and the `Err` (fuzzy-set) results are kept. -/
def get_fuzzy_set_consequences (e : InferenceEngine) : List FuzzySet :=
  e.rules.filterMap (fun rule =>
    match rule.consequence [] with
    | Except.error fuzzy_set => some fuzzy_set
    | Except.ok _ => none)

end InferenceEngine

/-- The aggregated membership used by all three defuzzifiers
(`fuzzy_sets.iter().map(|fs| fs.membership_degree(x)).fold(0.0, f64::max)`). -/
def aggregatedMembership (fuzzy_sets : List FuzzySet) (x : ℚ) : ℚ :=
  (fuzzy_sets.map (fun fs => fs.membership_degree x)).foldl max 0

namespace InferenceEngine

/-- `InferenceEngine::defuzzify_centroid` (lines 173-191). -/
def defuzzify_centroid (e : InferenceEngine) (min_val max_val step : ℚ) : ℚ :=
  let fuzzy_sets := e.get_fuzzy_set_consequences
  let p := (samplePoints min_val max_val step).foldl
    (fun acc x => (acc.1 + x * aggregatedMembership fuzzy_sets x,
                   acc.2 + aggregatedMembership fuzzy_sets x))
    ((0 : ℚ), (0 : ℚ))
  if p.2 = 0 then 0 else p.1 / p.2

end InferenceEngine

/-- The loop body of `defuzzify_mom` (lines 203-210) acting on the state
`(max_mu, sum_x, count)`: a strictly larger membership resets the state to
the single current point, an exactly equal one accumulates it. -/
def momStep (g : ℚ → ℚ) (acc : ℚ × ℚ × ℚ) (x : ℚ) : ℚ × ℚ × ℚ :=
  if g x > acc.1 then (g x, x, 1)
  else if g x = acc.1 then (acc.1, acc.2.1 + x, acc.2.2 + 1)
  else acc

namespace InferenceEngine

/-- `InferenceEngine::defuzzify_mom` (lines 193-218): scan with `momStep`
from `(0.0, 0.0, 0.0)`, then the zero-count fallback `0.0`. -/
def defuzzify_mom (e : InferenceEngine) (min_val max_val step : ℚ) : ℚ :=
  let fuzzy_sets := e.get_fuzzy_set_consequences
  let r := (samplePoints min_val max_val step).foldl
    (momStep (aggregatedMembership fuzzy_sets)) ((0 : ℚ), (0 : ℚ), (0 : ℚ))
  if r.2.2 = 0 then 0 else r.2.1 / r.2.2

end InferenceEngine

/-- The second loop of `defuzzify_bisector` (lines 233-244): accumulate
`left_area += mu * step` and break with the current point as soon as it
reaches half the total area; the fallback is the initial value `min_val`
of the `bisector` variable. -/
def bisectorLoop (g : ℚ → ℚ) (step half fallback : ℚ) :
    ℚ → List ℚ → ℚ
  | _, [] => fallback
  | left_area, x :: rest =>
    if left_area + g x * step ≥ half then x
    else bisectorLoop g step half fallback (left_area + g x * step) rest

namespace InferenceEngine

/-- `InferenceEngine::defuzzify_bisector` (lines 220-246): first pass sums
`mu * step` into `total_area`; second pass is `bisectorLoop` with
threshold `total_area / 2.0` starting from `left_area = 0.0`. -/
def defuzzify_bisector (e : InferenceEngine) (min_val max_val step : ℚ) : ℚ :=
  let fuzzy_sets := e.get_fuzzy_set_consequences
  let pts := samplePoints min_val max_val step
  let total_area :=
    (pts.map (fun x => aggregatedMembership fuzzy_sets x * step)).sum
  bisectorLoop (aggregatedMembership fuzzy_sets) step (total_area / 2)
    min_val 0 pts

end InferenceEngine

/-- An accumulation loop of two running sums equals the pair of list sums
offset by the initial values. -/
lemma foldl_add_pair {α : Type} (f g : α → ℚ) :
    ∀ (l : List α) (a b : ℚ),
      l.foldl (fun acc x => (acc.1 + f x, acc.2 + g x)) (a, b)
        = (a + (l.map f).sum, b + (l.map g).sum) := by
  intro l
  induction l with
  | nil => intro a b; simp
  | cons x xs ih =>
    intro a b
    simp only [List.foldl_cons, List.map_cons, List.sum_cons, ih, add_assoc]

/-- C4: the derived union and intersection sets evaluate pointwise to the
exact max and min of the operands' membership degrees. -/
theorem union_intersection_pointwise (a b : FuzzySet) (x : ℚ) :
    (a.union b).membership_degree x
        = max (a.membership_degree x) (b.membership_degree x) ∧
      (a.intersection b).membership_degree x
        = min (a.membership_degree x) (b.membership_degree x) :=
  ⟨rfl, rfl⟩

/-- C8: complementing twice restores the membership degree exactly:
`1 - (1 - mu(x)) = mu(x)` in the exact arithmetic of the model. -/
theorem complement_involutive (s : FuzzySet) (x : ℚ) :
    (s.complement.complement).membership_degree x = s.membership_degree x := by
  show 1 - (1 - s.membership_function x) = s.membership_function x
  ring

/-- C7: both centroid computations return `0` exactly when the
accumulated denominator (the total membership mass over the sampled
points) is `0`, and the quotient of the accumulated sums otherwise. -/
theorem centroid_zero_denominator_fallback (s : FuzzySet) (e : InferenceEngine)
    (min_val max_val step : ℚ) :
    s.centroid min_val max_val step =
      (if ((samplePoints min_val max_val step).map
            (fun x => s.membership_degree x)).sum = 0 then 0
       else ((samplePoints min_val max_val step).map
              (fun x => x * s.membership_degree x)).sum
            / ((samplePoints min_val max_val step).map
                (fun x => s.membership_degree x)).sum) ∧
    e.defuzzify_centroid min_val max_val step =
      (if ((samplePoints min_val max_val step).map
            (fun x => aggregatedMembership e.get_fuzzy_set_consequences x)).sum
              = 0 then 0
       else ((samplePoints min_val max_val step).map
              (fun x => x * aggregatedMembership e.get_fuzzy_set_consequences x)).sum
            / ((samplePoints min_val max_val step).map
                (fun x => aggregatedMembership e.get_fuzzy_set_consequences x)).sum) := by
  constructor
  · simp only [FuzzySet.centroid, foldl_add_pair, zero_add]
  · simp only [InferenceEngine.defuzzify_centroid, foldl_add_pair, zero_add]

/-- C3: the averaged score maps to a category by inclusive lower-bound
half-open thresholds; `5/2` maps to the category of urgent items and
`24999/10000` (the spec's `2.4999`) to the high-priority one. -/
theorem reverse_priority_mapping_thresholds (s : ℚ) :
    (InferenceEngine.reverse_priority_mapping s = "Urgent" ↔ 5/2 ≤ s) ∧
    (InferenceEngine.reverse_priority_mapping s = "High Priority" ↔
      3/2 ≤ s ∧ s < 5/2) ∧
    (InferenceEngine.reverse_priority_mapping s = "Medium Priority" ↔
      1/2 ≤ s ∧ s < 3/2) ∧
    (InferenceEngine.reverse_priority_mapping s = "Low Priority" ↔ s < 1/2) ∧
    InferenceEngine.reverse_priority_mapping (5/2) = "Urgent" ∧
    InferenceEngine.reverse_priority_mapping (24999/10000) = "High Priority" := by
  have k1 : InferenceEngine.reverse_priority_mapping (5/2) = "Urgent" := by
    rw [InferenceEngine.reverse_priority_mapping, if_pos (by norm_num)]
  have k2 : InferenceEngine.reverse_priority_mapping (24999/10000)
      = "High Priority" := by
    rw [InferenceEngine.reverse_priority_mapping, if_neg (by norm_num),
      if_pos (by norm_num)]
  refine ⟨?_, ?_, ?_, ?_, k1, k2⟩ <;>
    · unfold InferenceEngine.reverse_priority_mapping
      split_ifs with h1 h2 h3 <;>
        first
          | (apply iff_of_true rfl
             first
               | (constructor <;> linarith)
               | linarith)
          | (apply iff_of_false (by decide)
             intro hc
             first
               | (obtain ⟨hc1, hc2⟩ := hc; linarith)
               | linarith)

/-- The rules whose condition holds on `inputs`: exactly the rules whose
`evaluate` returns a match inside `infer`'s collection loop. -/
def matchedRules (e : InferenceEngine) (inputs : InputMap) : List FuzzyRule :=
  e.rules.filter (fun rule => rule.condition inputs)

/-- Spec-side score table, transcribed from the spec's words: `Urgent` is
3.0, `High Priority` 2.0, `Medium Priority` 1.0, any other label and any
fuzzy-set consequence 0.0.  Stated separately from the code's
`priority_mapping` so that the aggregation theorem checks the code
against the spec's table. -/
def specScore (result : Except FuzzySet String) : ℚ :=
  match result with
  | Except.ok priority =>
      if priority = "Urgent" then 3
      else if priority = "High Priority" then 2
      else if priority = "Medium Priority" then 1
      else 0
  | Except.error _ => 0

lemma specScore_eq_priorityValue (r : Except FuzzySet String) :
    InferenceEngine.priorityValue r = specScore r := by
  cases r <;> rfl

lemma infer_results_eq (e : InferenceEngine) (inputs : InputMap) :
    e.rules.filterMap (fun rule => rule.evaluate inputs)
      = (matchedRules e inputs).map (fun r => (r.consequence inputs, r.weight)) := by
  rw [matchedRules]
  induction e.rules with
  | nil => rfl
  | cons r rs ih =>
    simp only [FuzzyRule.evaluate] at ih ⊢
    cases hc : r.condition inputs <;>
      simp [List.filterMap_cons, List.filter_cons, hc, ih]

/-- C1: when at least one rule matches and the matched weights have a
strictly positive sum, `infer` is the threshold category of the
weight-normalized average of the spec's scores. -/
theorem infer_weighted_average_spec (e : InferenceEngine) (inputs : InputMap)
    (h1 : matchedRules e inputs ≠ [])
    (h2 : 0 < ((matchedRules e inputs).map (fun r => r.weight)).sum) :
    e.infer inputs =
      InferenceEngine.reverse_priority_mapping
        (((matchedRules e inputs).map
            (fun r => specScore (r.consequence inputs) * r.weight)).sum
          / ((matchedRules e inputs).map (fun r => r.weight)).sum) := by
  rw [InferenceEngine.infer, infer_results_eq, InferenceEngine.aggregate_results]
  rw [if_neg (by simp [List.isEmpty_iff, h1])]
  simp only [foldl_add_pair, zero_add, List.map_map, Function.comp_def,
    specScore_eq_priorityValue]
  rw [if_pos (by exact h2)]

/-- C2: if no rule's condition holds, or the matched rules' weights sum
to zero, `infer` returns the fixed default category. -/
theorem infer_default_low_priority (e : InferenceEngine) (inputs : InputMap)
    (h : (∀ r ∈ e.rules, r.condition inputs = false) ∨
         ((matchedRules e inputs).map (fun r => r.weight)).sum = 0) :
    e.infer inputs = "Low Priority" := by
  rw [InferenceEngine.infer, infer_results_eq]
  rcases h with h | h
  · have hm : matchedRules e inputs = [] := by
      rw [matchedRules, List.filter_eq_nil_iff]
      intro r hr
      simp [h r hr]
    rw [hm]
    rfl
  · rw [InferenceEngine.aggregate_results]
    by_cases hm : matchedRules e inputs = []
    · rw [if_pos (by simp [hm])]
    · rw [if_neg (by simp [List.isEmpty_iff, hm])]
      simp only [foldl_add_pair, zero_add, List.map_map, Function.comp_def]
      rw [if_neg (by simp [h])]

lemma aggregate_results_perm (l1 l2 : List (Except FuzzySet String × ℚ))
    (h : l1.Perm l2) :
    InferenceEngine.aggregate_results l1 = InferenceEngine.aggregate_results l2 := by
  have hempty : l1.isEmpty = l2.isEmpty := by
    rcases l1 with _ | ⟨a, l⟩
    · rw [← h.nil_eq]
    · rcases l2 with _ | ⟨b, m⟩
      · exact absurd h.eq_nil (by simp)
      · rfl
  have hsum1 : (l1.map (fun rw => InferenceEngine.priorityValue rw.1 * rw.2)).sum
      = (l2.map (fun rw => InferenceEngine.priorityValue rw.1 * rw.2)).sum :=
    (h.map _).sum_eq
  have hsum2 : (l1.map Prod.snd).sum = (l2.map Prod.snd).sum :=
    (h.map _).sum_eq
  rw [InferenceEngine.aggregate_results, InferenceEngine.aggregate_results]
  simp only [foldl_add_pair, zero_add]
  rw [hempty, hsum1, hsum2]

/-- C9: permuting the engine's rule vector does not change the category
returned by `infer` on any input map. -/
theorem infer_rule_order_irrelevant (e1 e2 : InferenceEngine) (inputs : InputMap)
    (h : e1.rules.Perm e2.rules) : e1.infer inputs = e2.infer inputs := by
  rw [InferenceEngine.infer, InferenceEngine.infer]
  exact aggregate_results_perm _ _ (h.filterMap _)

/-- A rule that always matches with the crisp consequence of an urgent
item, used by the concrete witnesses. -/
def ruleUrgent : FuzzyRule :=
  { condition := fun _ => true
    consequence := fun _ => Except.ok ("Urgent")
    weight := 1 }

/-- A rule that always matches with the crisp medium-priority consequence. -/
def ruleMedium : FuzzyRule :=
  { condition := fun _ => true
    consequence := fun _ => Except.ok ("Medium Priority")
    weight := 1 }

/-- A rule that never matches. -/
def ruleNever : FuzzyRule :=
  { condition := fun _ => false
    consequence := fun _ => Except.ok ("Urgent")
    weight := 1 }

/-- Engine with the urgent rule first. -/
def engineAB : InferenceEngine := { rules := [ruleUrgent, ruleMedium] }

/-- Engine with the medium rule first. -/
def engineBA : InferenceEngine := { rules := [ruleMedium, ruleUrgent] }

/-- Engine whose only rule never matches. -/
def engineNone : InferenceEngine := { rules := [ruleNever] }

/-- Witness for C1 at a concrete engine: two matching rules of weight one. -/
theorem infer_weighted_average_spec_witness :
    matchedRules engineAB [] ≠ [] ∧
    0 < ((matchedRules engineAB []).map (fun r => r.weight)).sum ∧
    engineAB.infer [] =
      InferenceEngine.reverse_priority_mapping
        (((matchedRules engineAB []).map
            (fun r => specScore (r.consequence []) * r.weight)).sum
          / ((matchedRules engineAB []).map (fun r => r.weight)).sum) :=
  ⟨by simp [matchedRules, engineAB, ruleUrgent, ruleMedium],
   by norm_num [matchedRules, engineAB, ruleUrgent, ruleMedium],
   infer_weighted_average_spec engineAB []
     (by simp [matchedRules, engineAB, ruleUrgent, ruleMedium])
     (by norm_num [matchedRules, engineAB, ruleUrgent, ruleMedium])⟩

/-- Witness for C2 at a concrete engine: the only rule never matches. -/
theorem infer_default_low_priority_witness :
    ((∀ r ∈ engineNone.rules, r.condition [] = false) ∨
      ((matchedRules engineNone []).map (fun r => r.weight)).sum = 0) ∧
    engineNone.infer [] = "Low Priority" :=
  ⟨Or.inl (by simp [engineNone, ruleNever]),
   infer_default_low_priority engineNone []
     (Or.inl (by simp [engineNone, ruleNever]))⟩

/-- Witness for C9 at a concrete pair of engines with swapped rules. -/
theorem infer_rule_order_irrelevant_witness :
    engineAB.rules.Perm engineBA.rules ∧
    engineAB.infer [] = engineBA.infer [] :=
  ⟨List.Perm.swap ruleMedium ruleUrgent [],
   infer_rule_order_irrelevant engineAB engineBA []
     (List.Perm.swap ruleMedium ruleUrgent [])⟩

lemma get_fuzzy_set_consequences_eq (e : InferenceEngine) :
    e.get_fuzzy_set_consequences
      = (e.rules.map (fun r => r.consequence [])).filterMap
          (fun c => match c with
            | Except.error fuzzy_set => some fuzzy_set
            | Except.ok _ => none) := by
  rw [InferenceEngine.get_fuzzy_set_consequences, List.filterMap_map]
  rfl

/-- C10: the fuzzy sets the defuzzifiers aggregate are exactly the
fuzzy-set results of applying each rule's consequence to the empty input
map; rule conditions and weights are never consulted, so two engines
whose rules' consequences agree on the empty map (whatever their
conditions, e.g. one never matching) defuzzify identically, and no
runtime input is involved. -/
theorem defuzzify_depends_only_on_consequences (e1 e2 : InferenceEngine)
    (min_val max_val step : ℚ)
    (h : e1.rules.map (fun r => r.consequence [])
        = e2.rules.map (fun r => r.consequence [])) :
    e1.get_fuzzy_set_consequences = e2.get_fuzzy_set_consequences ∧
    e1.get_fuzzy_set_consequences
      = e1.rules.filterMap (fun rule =>
          match rule.consequence [] with
          | Except.error fuzzy_set => some fuzzy_set
          | Except.ok _ => none) ∧
    e1.defuzzify_centroid min_val max_val step
      = e2.defuzzify_centroid min_val max_val step ∧
    e1.defuzzify_mom min_val max_val step
      = e2.defuzzify_mom min_val max_val step ∧
    e1.defuzzify_bisector min_val max_val step
      = e2.defuzzify_bisector min_val max_val step := by
  have hg : e1.get_fuzzy_set_consequences = e2.get_fuzzy_set_consequences := by
    rw [get_fuzzy_set_consequences_eq, get_fuzzy_set_consequences_eq, h]
  refine ⟨hg, rfl, ?_, ?_, ?_⟩
  · simp only [InferenceEngine.defuzzify_centroid, hg]
  · simp only [InferenceEngine.defuzzify_mom, hg]
  · simp only [InferenceEngine.defuzzify_bisector, hg]

/-- The flat-top fuzzy set of the spec's defuzzification examples:
membership one on the interval from four to six, zero elsewhere. -/
def flatTopSet : FuzzySet :=
  { name := ("FlatTop")
    membership_function := fun x => if 4 ≤ x ∧ x ≤ 6 then 1 else 0 }

/-- A consequence producing the flat-top fuzzy set on every input. -/
def flatConsequence : InputMap → Except FuzzySet String :=
  fun _ => Except.error flatTopSet

/-- An always-matching rule with the flat-top fuzzy consequence. -/
def ruleFlatTrue : FuzzyRule :=
  { condition := fun _ => true
    consequence := flatConsequence
    weight := 1 }

/-- A never-matching rule with the flat-top fuzzy consequence. -/
def ruleFlatFalse : FuzzyRule :=
  { condition := fun _ => false
    consequence := flatConsequence
    weight := 1 }

/-- The flat-top engine of the spec's defuzzification examples. -/
def engineFlat : InferenceEngine := { rules := [ruleFlatTrue] }

/-- The flat-top engine whose rule can never fire. -/
def engineFlatNever : InferenceEngine := { rules := [ruleFlatFalse] }

/-- Witness for C10: the engines with an always-false and an always-true
condition on the same consequence defuzzify identically. -/
theorem defuzzify_depends_only_on_consequences_witness :
    engineFlat.rules.map (fun r => r.consequence [])
        = engineFlatNever.rules.map (fun r => r.consequence []) ∧
    engineFlat.get_fuzzy_set_consequences
        = engineFlatNever.get_fuzzy_set_consequences ∧
    engineFlat.defuzzify_centroid 0 10 1
        = engineFlatNever.defuzzify_centroid 0 10 1 ∧
    engineFlat.defuzzify_mom 0 10 1 = engineFlatNever.defuzzify_mom 0 10 1 ∧
    engineFlat.defuzzify_bisector 0 10 1
        = engineFlatNever.defuzzify_bisector 0 10 1 :=
  ⟨rfl,
   (defuzzify_depends_only_on_consequences engineFlat engineFlatNever 0 10 1 rfl).1,
   (defuzzify_depends_only_on_consequences engineFlat engineFlatNever 0 10 1 rfl).2.2.1,
   (defuzzify_depends_only_on_consequences engineFlat engineFlatNever 0 10 1 rfl).2.2.2.1,
   (defuzzify_depends_only_on_consequences engineFlat engineFlatNever 0 10 1 rfl).2.2.2.2⟩

lemma foldlMax_init_le (l : List ℚ) (a : ℚ) : a ≤ l.foldl max a := by
  induction l generalizing a with
  | nil => exact le_refl a
  | cons x xs ih =>
    exact le_trans (le_max_left a x) (ih (max a x))

lemma foldlMax_le_of_mem (l : List ℚ) (a x : ℚ) (hx : x ∈ l) :
    x ≤ l.foldl max a := by
  induction l generalizing a with
  | nil => cases hx
  | cons y ys ih =>
    rcases List.mem_cons.mp hx with rfl | hmem
    · exact le_trans (le_max_right a x) (foldlMax_init_le ys (max a x))
    · exact ih (max a y) hmem

lemma foldlMax_eq_or_mem (l : List ℚ) (a : ℚ) :
    l.foldl max a = a ∨ l.foldl max a ∈ l := by
  induction l generalizing a with
  | nil => exact Or.inl rfl
  | cons y ys ih =>
    rcases ih (max a y) with h | h
    · rcases max_choice a y with hc | hc
      · exact Or.inl (by rw [List.foldl_cons, h, hc])
      · exact Or.inr (by rw [List.foldl_cons, h, hc]; exact List.mem_cons_self _ _)
    · exact Or.inr (List.mem_cons_of_mem _ (by rw [List.foldl_cons]; exact h))

lemma momFold_eq (g : ℚ → ℚ) :
    ∀ (l : List ℚ) (m s c : ℚ),
      l.foldl (momStep g) (m, s, c)
        = if m < (l.map g).foldl max m
          then ((l.map g).foldl max m,
                (l.filter (fun x => g x = (l.map g).foldl max m)).sum,
                ((l.filter (fun x => g x = (l.map g).foldl max m)).length : ℚ))
          else (m,
                s + (l.filter (fun x => g x = m)).sum,
                c + ((l.filter (fun x => g x = m)).length : ℚ)) := by
  intro l
  induction l with
  | nil =>
    intro m s c
    simp
  | cons x xs ih =>
    intro m s c
    simp only [List.foldl_cons, List.map_cons]
    rcases lt_trichotomy m (g x) with hlt | heq | hgt
    · have hstep : momStep g (m, s, c) x = (g x, x, 1) := by
        simp [momStep, hlt]
      rw [hstep, ih]
      simp only [max_eq_right hlt.le]
      have hle : g x ≤ (xs.map g).foldl max (g x) := foldlMax_init_le _ _
      by_cases hM : g x < (xs.map g).foldl max (g x)
      · have hM2 : m < (xs.map g).foldl max (g x) := lt_trans hlt hM
        have hne : g x ≠ (xs.map g).foldl max (g x) := ne_of_lt hM
        simp [hM, hM2, List.filter_cons, hne]
      · have hMe : (xs.map g).foldl max (g x) = g x :=
          le_antisymm (not_lt.mp hM) hle
        simp only [hMe, lt_irrefl, if_false, hlt, if_true, reduceIte]
        simp [List.filter_cons, Prod.mk.injEq]
        ring
    · have hstep : momStep g (m, s, c) x = (m, s + x, c + 1) := by
        simp [momStep, ← heq]
      rw [hstep, ih]
      simp only [max_eq_left heq.ge]
      by_cases hM : m < (xs.map g).foldl max m
      · have hne : g x ≠ (xs.map g).foldl max m := by
          rw [← heq]
          exact ne_of_lt hM
        simp [hM, List.filter_cons, hne]
      · have hxm : g x = m := heq.symm
        simp only [if_neg hM]
        simp [List.filter_cons, hxm, Prod.mk.injEq]
        constructor <;> ring
    · have hstep : momStep g (m, s, c) x = (m, s, c) := by
        simp [momStep, lt_asymm hgt, ne_of_lt hgt]
      rw [hstep, ih]
      simp only [max_eq_left hgt.le]
      by_cases hM : m < (xs.map g).foldl max m
      · have hne : g x ≠ (xs.map g).foldl max m :=
          ne_of_lt (lt_trans hgt hM)
        simp [hM, List.filter_cons, hne]
      · have hne : g x ≠ m := ne_of_lt hgt
        simp [hM, List.filter_cons, hne]

/-- The running maximum that `defuzzify_mom`'s scan ends with: the fold
of `max` over the aggregated memberships of the sampled points, started
at the source's initial value `0.0`. -/
def momMax (e : InferenceEngine) (min_val max_val step : ℚ) : ℚ :=
  ((samplePoints min_val max_val step).map
    (aggregatedMembership e.get_fuzzy_set_consequences)).foldl max 0

/-- The sampled points whose aggregated membership ties the maximum. -/
def tiedMaxPoints (e : InferenceEngine) (min_val max_val step : ℚ) : List ℚ :=
  (samplePoints min_val max_val step).filter
    (fun x => aggregatedMembership e.get_fuzzy_set_consequences x
        = momMax e min_val max_val step)

lemma aggregatedMembership_nonneg (fuzzy_sets : List FuzzySet) (x : ℚ) :
    0 ≤ aggregatedMembership fuzzy_sets x :=
  foldlMax_init_le _ 0

lemma samplePoints_ne_nil (min_val max_val step : ℚ)
    (h1 : min_val ≤ max_val) (h2 : 0 < step) :
    samplePoints min_val max_val step ≠ [] := by
  rw [samplePoints, if_pos ⟨h1, h2⟩]
  simp
  exact ⟨0, Nat.succ_pos _⟩

lemma samplePoints_flat : samplePoints 0 10 1 = [0, 1, 2, 3, 4, 5, 6, 7, 8, 9, 10] := by
  have h0 : ⌊((10:ℚ) - 0) / 1⌋ = 10 := by norm_num
  rw [samplePoints, if_pos (by norm_num), h0]
  have h1 : (10:ℤ).toNat + 1 = 11 := by decide
  rw [h1]
  norm_num [List.range_succ]

set_option maxRecDepth 8000 in
/-- C5: for a terminating scan, `defuzzify_mom` returns the mean of the
sampled points whose aggregated membership ties the maximal aggregated
membership (strictly larger values reset the running state, exactly
equal values accumulate); on the flat-top engine over `[0,10]` with step
one it returns exactly `5`, the mean of the tied maxima `4, 5, 6`. -/
theorem defuzzify_mom_mean_of_maxima (e : InferenceEngine)
    (min_val max_val step : ℚ) (h1 : min_val ≤ max_val) (h2 : 0 < step) :
    (∀ x ∈ samplePoints min_val max_val step,
        aggregatedMembership e.get_fuzzy_set_consequences x
          ≤ momMax e min_val max_val step) ∧
    (∃ x ∈ samplePoints min_val max_val step,
        aggregatedMembership e.get_fuzzy_set_consequences x
          = momMax e min_val max_val step) ∧
    e.defuzzify_mom min_val max_val step
      = (tiedMaxPoints e min_val max_val step).sum
          / ((tiedMaxPoints e min_val max_val step).length : ℚ) ∧
    engineFlat.defuzzify_mom 0 10 1 = 5 := by
  have hbound : ∀ x ∈ samplePoints min_val max_val step,
      aggregatedMembership e.get_fuzzy_set_consequences x
        ≤ momMax e min_val max_val step := by
    intro x hx
    exact foldlMax_le_of_mem _ 0 _ (List.mem_map_of_mem _ hx)
  have hattain : ∃ x ∈ samplePoints min_val max_val step,
      aggregatedMembership e.get_fuzzy_set_consequences x
        = momMax e min_val max_val step := by
    rcases foldlMax_eq_or_mem
        ((samplePoints min_val max_val step).map
          (aggregatedMembership e.get_fuzzy_set_consequences)) 0 with h | h
    · obtain ⟨x, hx⟩ :=
        List.exists_mem_of_ne_nil _ (samplePoints_ne_nil _ _ _ h1 h2)
      refine ⟨x, hx, ?_⟩
      have hb : aggregatedMembership e.get_fuzzy_set_consequences x ≤ 0 := by
        have hb0 := hbound x hx
        rw [momMax, h] at hb0
        exact hb0
      rw [momMax, h]
      exact le_antisymm hb (aggregatedMembership_nonneg _ _)
    · obtain ⟨x, hx, hxe⟩ := List.mem_map.mp h
      exact ⟨x, hx, by rw [momMax]; exact hxe⟩
  have hne : tiedMaxPoints e min_val max_val step ≠ [] := by
    obtain ⟨x, hx, hxe⟩ := hattain
    rw [tiedMaxPoints]
    exact List.ne_nil_of_mem (List.mem_filter.mpr ⟨hx, by simp [hxe]⟩)
  have hlenn : (tiedMaxPoints e min_val max_val step).length ≠ 0 := by
    intro hc
    exact hne (List.length_eq_zero.mp hc)
  have hlen : ((tiedMaxPoints e min_val max_val step).length : ℚ) ≠ 0 := by
    exact_mod_cast hlenn
  have hmom : e.defuzzify_mom min_val max_val step
      = (tiedMaxPoints e min_val max_val step).sum
          / ((tiedMaxPoints e min_val max_val step).length : ℚ) := by
    rw [tiedMaxPoints] at hlen ⊢
    simp only [InferenceEngine.defuzzify_mom]
    rw [momFold_eq]
    by_cases hM : (0:ℚ) < ((samplePoints min_val max_val step).map
        (aggregatedMembership e.get_fuzzy_set_consequences)).foldl max 0
    · rw [if_pos hM]
      simp only [momMax]
      rw [if_neg (by simpa [momMax] using hlen)]
    · rw [if_neg hM]
      have h0 : ((samplePoints min_val max_val step).map
          (aggregatedMembership e.get_fuzzy_set_consequences)).foldl max 0 = 0 :=
        le_antisymm (not_lt.mp hM) (foldlMax_init_le _ _)
      simp only [momMax, h0, zero_add] at hlen ⊢
      rw [if_neg hlen]
  have hconc : engineFlat.defuzzify_mom 0 10 1 = 5 := by
    have hgf : engineFlat.get_fuzzy_set_consequences = [flatTopSet] := rfl
    simp only [InferenceEngine.defuzzify_mom, hgf, samplePoints_flat]
    norm_num [momStep, aggregatedMembership, FuzzySet.membership_degree,
      flatTopSet]
  exact ⟨hbound, hattain, hmom, hconc⟩

/-- Witness for C5: the flat-top engine over the domain zero to ten. -/
theorem defuzzify_mom_mean_of_maxima_witness :
    (0:ℚ) ≤ 10 ∧ (0:ℚ) < 1 ∧
    engineFlat.defuzzify_mom 0 10 1
      = (tiedMaxPoints engineFlat 0 10 1).sum
          / ((tiedMaxPoints engineFlat 0 10 1).length : ℚ) :=
  ⟨by norm_num, by norm_num,
   (defuzzify_mom_mean_of_maxima engineFlat 0 10 1 (by norm_num)
      (by norm_num)).2.2.1⟩

/-- The cumulative left-to-right area after the sample point of index `i`
(`left_area` in the source after `i + 1` iterations of the second loop). -/
def cumArea (e : InferenceEngine) (min_val max_val step : ℚ) (i : ℕ) : ℚ :=
  (((samplePoints min_val max_val step).take (i+1)).map
    (fun x => aggregatedMembership e.get_fuzzy_set_consequences x * step)).sum

/-- The total area computed by the first loop of `defuzzify_bisector`. -/
def totalArea (e : InferenceEngine) (min_val max_val step : ℚ) : ℚ :=
  ((samplePoints min_val max_val step).map
    (fun x => aggregatedMembership e.get_fuzzy_set_consequences x * step)).sum

lemma bisectorLoop_spec (g : ℚ → ℚ) (st half fb : ℚ) :
    ∀ (l : List ℚ) (acc : ℚ),
      (∃ i, i < l.length ∧
        bisectorLoop g st half fb acc l = l.getD i 0 ∧
        half ≤ acc + ((l.take (i+1)).map (fun x => g x * st)).sum ∧
        ∀ j < i, acc + ((l.take (j+1)).map (fun x => g x * st)).sum < half) ∨
      (bisectorLoop g st half fb acc l = fb ∧
        ∀ i < l.length, acc + ((l.take (i+1)).map (fun x => g x * st)).sum < half) := by
  intro l
  induction l with
  | nil =>
    intro acc
    right
    refine ⟨rfl, ?_⟩
    intro i hi
    simp at hi
  | cons x xs ih =>
    intro acc
    rw [bisectorLoop]
    by_cases hx : acc + g x * st ≥ half
    · left
      refine ⟨0, Nat.succ_pos _, ?_, ?_, ?_⟩
      · rw [if_pos hx]
        rfl
      · simpa using hx
      · intro j hj
        simp at hj
    · rw [if_neg hx]
      rcases ih (acc + g x * st) with ⟨i, hi, heq, hge, hlt⟩ | ⟨heq, hall⟩
      · left
        refine ⟨i + 1, by simpa using Nat.succ_lt_succ hi, by simpa using heq,
          ?_, ?_⟩
        · simpa [add_assoc] using hge
        · intro j hj
          cases j with
          | zero => simpa using not_le.mp hx
          | succ k =>
            have hk : k < i := Nat.lt_of_succ_lt_succ hj
            simpa [add_assoc] using hlt k hk
      · right
        refine ⟨heq, ?_⟩
        intro i hi
        cases i with
        | zero => simpa using not_le.mp hx
        | succ k =>
          have hk : k < xs.length := by simpa using Nat.lt_of_succ_lt_succ hi
          simpa [add_assoc] using hall k hk

lemma samplePoints_getD_zero (min_val max_val step : ℚ)
    (h1 : min_val ≤ max_val) (h2 : 0 < step) :
    (samplePoints min_val max_val step).getD 0 0 = min_val := by
  rw [samplePoints, if_pos ⟨h1, h2⟩, List.range_succ_eq_map]
  simp

/-- C6: for a terminating scan, `defuzzify_bisector` returns the first
sampled point at which the left-to-right cumulative area reaches or
exceeds half the total area, and returns `min_val` unchanged when the
total area is zero. -/
theorem defuzzify_bisector_first_crossing (e : InferenceEngine)
    (min_val max_val step : ℚ) (h1 : min_val ≤ max_val) (h2 : 0 < step) :
    (∃ i, i < (samplePoints min_val max_val step).length ∧
      e.defuzzify_bisector min_val max_val step
        = (samplePoints min_val max_val step).getD i 0 ∧
      totalArea e min_val max_val step / 2 ≤ cumArea e min_val max_val step i ∧
      ∀ j < i, cumArea e min_val max_val step j
          < totalArea e min_val max_val step / 2) ∧
    (totalArea e min_val max_val step = 0 →
      e.defuzzify_bisector min_val max_val step = min_val) := by
  have hnil := samplePoints_ne_nil min_val max_val step h1 h2
  have hlenpos : 0 < (samplePoints min_val max_val step).length :=
    List.length_pos.mpr hnil
  have hdef : e.defuzzify_bisector min_val max_val step
      = bisectorLoop (aggregatedMembership e.get_fuzzy_set_consequences) step
          (totalArea e min_val max_val step / 2) min_val 0
          (samplePoints min_val max_val step) := by
    simp only [InferenceEngine.defuzzify_bisector, totalArea]
  have hcumnn : ∀ i, 0 ≤ cumArea e min_val max_val step i := by
    intro i
    rw [cumArea]
    apply List.sum_nonneg
    intro a ha
    obtain ⟨x, hx, rfl⟩ := List.mem_map.mp ha
    exact mul_nonneg (aggregatedMembership_nonneg _ _) h2.le
  have htotnn : 0 ≤ totalArea e min_val max_val step := by
    rw [totalArea]
    apply List.sum_nonneg
    intro a ha
    obtain ⟨x, hx, rfl⟩ := List.mem_map.mp ha
    exact mul_nonneg (aggregatedMembership_nonneg _ _) h2.le
  have hcum_last : cumArea e min_val max_val step
      ((samplePoints min_val max_val step).length - 1)
      = totalArea e min_val max_val step := by
    rw [cumArea, totalArea, Nat.sub_add_cancel hlenpos, List.take_length]
  have hmain : ∃ i, i < (samplePoints min_val max_val step).length ∧
      e.defuzzify_bisector min_val max_val step
        = (samplePoints min_val max_val step).getD i 0 ∧
      totalArea e min_val max_val step / 2 ≤ cumArea e min_val max_val step i ∧
      ∀ j < i, cumArea e min_val max_val step j
          < totalArea e min_val max_val step / 2 := by
    rcases bisectorLoop_spec (aggregatedMembership e.get_fuzzy_set_consequences)
        step (totalArea e min_val max_val step / 2) min_val
        (samplePoints min_val max_val step) 0 with
      ⟨i, hi, heq, hge, hlt⟩ | ⟨heq, hall⟩
    · refine ⟨i, hi, ?_, ?_, ?_⟩
      · rw [hdef, heq]
      · rw [cumArea]
        rw [zero_add] at hge
        exact hge
      · intro j hj
        have hj2 := hlt j hj
        rw [zero_add] at hj2
        rw [cumArea]
        exact hj2
    · exfalso
      have hlast := hall ((samplePoints min_val max_val step).length - 1)
        (by omega)
      rw [zero_add] at hlast
      have hc : cumArea e min_val max_val step
          ((samplePoints min_val max_val step).length - 1)
          < totalArea e min_val max_val step / 2 := by
        rw [cumArea]
        exact hlast
      rw [hcum_last] at hc
      linarith
  refine ⟨hmain, ?_⟩
  intro htot
  rcases hmain with ⟨i, hi, heq, hge, hlt⟩
  rcases Nat.eq_zero_or_pos i with hi0 | hi0
  · subst hi0
    rw [heq, samplePoints_getD_zero min_val max_val step h1 h2]
  · have h0 := hlt 0 hi0
    rw [htot] at h0
    norm_num at h0
    exact absurd (hcumnn 0) (not_le.mpr h0)

/-- Witness for C6: the flat-top engine over the domain zero to ten. -/
theorem defuzzify_bisector_first_crossing_witness :
    (0:ℚ) ≤ 10 ∧ (0:ℚ) < 1 ∧
    (∃ i, i < (samplePoints 0 10 1).length ∧
      engineFlat.defuzzify_bisector 0 10 1 = (samplePoints 0 10 1).getD i 0 ∧
      totalArea engineFlat 0 10 1 / 2 ≤ cumArea engineFlat 0 10 1 i ∧
      ∀ j < i, cumArea engineFlat 0 10 1 j < totalArea engineFlat 0 10 1 / 2) :=
  ⟨by norm_num, by norm_num,
   (defuzzify_bisector_first_crossing engineFlat 0 10 1 (by norm_num)
      (by norm_num)).1⟩
